import Mathlib

/-!
Verification of the legalage_logic core (src/api.rs, src/zk.rs) against its
specification.  The Rust data model and operations are shallowly embedded:
`i32` values become `Int` with explicit two's-complement wrapping where
arithmetic occurs, byte vectors become `List Nat`, and fallible operations
return `Option` or explicit result inductives.  External cryptographic
libraries (the embedded ZoKrates circuit blob, the Groth16 prover, the
bellman proof codec and the MiMC7 hasher) are not part of src/; they are
either abstracted as parameters or modelled from the specification, as noted
on each definition.
-/

namespace LegalAge

/-- Byte vectors (`Vec<u8>`); each entry is intended to be `< 256`. -/
abbrev Bytes := List Nat

/-- BN254 / BN256 scalar field order (spec section 3). -/
def fieldOrder : Nat :=
  21888242871839275222246405745257275088548364400416034343698204186575808495617

instance : NeZero fieldOrder := ⟨by decide⟩

/-- The scalar field `F` of the circuit. -/
abbrev F := ZMod fieldOrder

/-- `src/zk.rs`: `const MAX_JULIAN_DAY: i32 = 9999999`. -/
def MAX_JULIAN_DAY : Int := 9999999

/-- Two's-complement wrapping of an unbounded integer into the `i32` range,
the release-mode semantics of Rust `i32` arithmetic. -/
def wrap32 (x : Int) : Int := (x + 2 ^ 31) % 2 ^ 32 - 2 ^ 31

/-- `x` is representable as an `i32`. -/
def inI32 (x : Int) : Prop := -(2 ^ 31) ≤ x ∧ x < 2 ^ 31

instance (x : Int) : Decidable (inI32 x) := by
  unfold inI32; infer_instance

/-- `src/api.rs`: `enum Relation { Younger, Older }`. -/
inductive Relation
  | Younger
  | Older
deriving DecidableEq, Repr

/-- `src/api.rs`: wire byte of a relation (`relation.clone() as u8`):
discriminants Younger = 0, Older = 1. -/
def Relation.toByte : Relation → Nat
  | Relation.Younger => 0
  | Relation.Older => 1

/-- `src/api.rs`: `struct Public` (public part of the proof). -/
structure Public where
  today : Int
  now : Int
  relation : Relation
  delta : Int
deriving DecidableEq, Repr

/-- `src/api.rs`: `struct Private`.  The Rust field `private` of `QrRequest`
is a Lean keyword, hence the name `priv` below. -/
structure Private where
  birthday : Int
  private_key : Bytes
  photos_digest : Bytes
deriving DecidableEq, Repr

/-- `src/api.rs`: `struct QrRequest`. -/
structure QrRequest where
  public : Public
  priv : Private
deriving DecidableEq, Repr

/-- `src/api.rs`: `QrRequest::is_relation_valid`.  The Rust source computes
`self.private.birthday + self.public.delta` in `i32`, so the sum is wrapped. -/
def QrRequest.is_relation_valid (rq : QrRequest) : Bool :=
  match rq.public.relation with
  | Relation.Younger =>
      decide (rq.public.today < wrap32 (rq.priv.birthday + rq.public.delta))
  | Relation.Older =>
      decide (wrap32 (rq.priv.birthday + rq.public.delta) < rq.public.today)

/-- `src/api.rs`: `struct ProofQrCode`.  `api.rs` declares the `proof` field
as a bellman proof object while `zk.rs` stores the obfuscated proof byte
vector in it, so the embedding is polymorphic in the proof representation:
the codec layer uses an abstract `Pf`, the zk layer uses `Bytes`. -/
structure ProofQrCode (Pf : Type) where
  public : Public
  proof : Pf
  challenge : Bytes
deriving DecidableEq, Repr

/-! ## Numerals and byte strings -/

/-- Value of a little-endian digit string in base `b`. -/
def ofBaseLE (b : Nat) (ds : List Nat) : Nat :=
  ds.foldr (fun d a => a * b + d) 0

/-- Value of a big-endian digit string in base `b`. -/
def ofBaseBE (b : Nat) (ds : List Nat) : Nat :=
  ds.foldl (fun a d => a * b + d) 0

/-- Little-endian base-`b` digits of `n` (empty for `0`), fuel-driven. -/
def natToBaseLE (b : Nat) : Nat → Nat → List Nat
  | 0, _ => []
  | fuel + 1, n => if n = 0 then [] else n % b :: natToBaseLE b fuel (n / b)

/-- Minimal big-endian base-`b` digit string of `n` (empty for `0`). -/
def natToBaseBE (b n : Nat) : List Nat := (natToBaseLE b (n + 1) n).reverse

/-- Big-endian value of a byte string. -/
def bytesToNatBE (bs : Bytes) : Nat := ofBaseBE 256 bs

/-- Fixed-width big-endian byte encoding, accumulator form. -/
def natToBytesBEAux : Nat → Nat → Bytes → Bytes
  | 0, _, acc => acc
  | w + 1, n, acc => natToBytesBEAux w (n / 256) (n % 256 :: acc)

/-- `w`-byte big-endian encoding of `n` (leading zeros preserved). -/
def natToBytesBE (w n : Nat) : Bytes := natToBytesBEAux w n []

/-! ## Field element byte codec -/

/-- Modelled from the spec: `Bn128Field::from_byte_vector` of the external
zokrates_field crate — a byte string decodes to the scalar it denotes in
big-endian, reduced into `F` (spec sections 3 and 4.2). -/
def fieldFromBytes (b : Bytes) : F := (bytesToNatBE b : F)

/-- Modelled from the spec: `Bn128Field::into_byte_vector` of the external
zokrates_field crate — the canonical 32-byte big-endian encoding of a field
element, leading zeros preserved (spec section 4.2). -/
def fieldToBytes (x : F) : Bytes := natToBytesBE 32 x.val

/-- `Bn128Field::from(i32)`: embedding of an `i32` into the field. -/
def intToF (i : Int) : F := (i : F)

/-! ## Obfuscation layer (src/zk.rs) -/

/-- `src/zk.rs`: `hide_buffer` — XOR the buffer with a repeating pad; an
empty pad leaves the buffer untouched. -/
def hide_buffer (buf hidding : Bytes) : Bytes :=
  if 0 < hidding.length then
    (List.range buf.length).zipWith
      (fun i b => b ^^^ hidding.getD (i % hidding.length) 0) buf
  else buf

/-- `src/zk.rs`: `hide_bellman_proof` — serialize the proof (`proof.write`,
abstracted as `write`) and XOR-mask the bytes with the pad. -/
def hide_bellman_proof {Pf : Type} (write : Pf → Bytes) (proof : Pf)
    (hidding : Bytes) : Bytes :=
  hide_buffer (write proof) hidding

/-- `src/zk.rs`: `unhide_bellman_proof` — XOR-unmask with the pad, then parse
the bytes as a Groth16 BN256 proof (`BellmanProof::read`, abstracted as
`read`); a parse failure is `none` (`QrError`). -/
def unhide_bellman_proof {Pf : Type} (read : Bytes → Option Pf)
    (hidden hidding : Bytes) : Option Pf :=
  read (hide_buffer hidden hidding)

/-! ## Relation folding (src/zk.rs) -/

/-- `src/zk.rs` lines 92–120 of `generate_proof`: the circuit arguments
`(birthday, delta, today)` after the relation folding / decoy policy.
All subtractions are `i32` operations, hence wrapped. -/
def foldedInputs (rq : QrRequest) : Int × Int × Int :=
  if rq.is_relation_valid then
    if rq.public.relation = Relation.Younger then
      (wrap32 (MAX_JULIAN_DAY - rq.priv.birthday),
       wrap32 (MAX_JULIAN_DAY - rq.public.delta),
       wrap32 (wrap32 (2 * MAX_JULIAN_DAY) - rq.public.today))
    else
      (rq.priv.birthday, rq.public.delta, rq.public.today)
  else
    (rq.priv.birthday, 0, rq.public.today)

/-- `src/zk.rs` lines 155–161 of `verify_proof`: the verifier-side folding of
the public header into `(delta_encoded, today_encoded)`. -/
def verifierFold (pub : Public) : Int × Int :=
  if pub.relation = Relation.Younger then
    (wrap32 (MAX_JULIAN_DAY - pub.delta),
     wrap32 (wrap32 (2 * MAX_JULIAN_DAY) - pub.today))
  else
    (pub.delta, pub.today)

/-- `src/zk.rs` lines 163–165 of `verify_proof`: the public-input vector
`[delta_encoded, today_encoded, challenge]` handed to the Groth16 check. -/
def verifyInputs (pub : Public) (challenge : Bytes) : List F :=
  [intToF (verifierFold pub).1, intToF (verifierFold pub).2,
   fieldFromBytes challenge]

/-! ## Key derivation (src/zk.rs) -/

/-- `src/zk.rs`: `generate_card_key`.  The MiMC7r10 hash is computed by the
external mimc_rs crate (via `compute_mimc7r10_hash`), abstracted here as the
parameter `H`. -/
def generate_card_key (H : F → F → F) (rq : Private) : Bytes :=
  let private_key := fieldFromBytes rq.private_key
  let birthday := intToF rq.birthday
  let photos_digest := fieldFromBytes rq.photos_digest
  let k := birthday * private_key
  let m1 := H photos_digest k
  let card_key := m1 * photos_digest
  fieldToBytes card_key

/-- `src/zk.rs`: `compute_challenge`. -/
def compute_challenge (H : F → F → F) (card_key : Bytes) (today : Int) :
    Bytes :=
  fieldToBytes (H (intToF today) (fieldFromBytes card_key))

/-! ## Proof generation and verification (src/zk.rs) -/

/-- Modelled from the spec: the embedded ZoKrates circuit (`zokrates/out`,
a static blob not under src/).  Spec section 4.3: five ordered witnesses
`(birthday_encoded, delta_encoded, today_encoded, photos_digest,
private_key)` and a single public output
`challenge = MiMC7r10(today_encoded, card_key)` with the card-key chain of
section 4.2 recomputed on `birthday_encoded`.  Execution is total: spec
section 4.4 requires the decoy path to run the full pipeline with no
error. -/
def circuitOutput (H : F → F → F) (birthday _delta today pd pk : F) : F :=
  H today (H pd (birthday * pk) * pd)

/-- Outcome of `ProgEnum::deserialize` on the embedded PROGRAM blob:
a Bn128 program, some other program type, or a deserialization error. -/
inductive ProgKind
  | bn128
  | other
deriving DecidableEq

/-- Infrastructural state of `generate_proof` (`src/zk.rs` lines 80–86):
the embedded-PROGRAM deserialization outcome and whether the embedded ABI
JSON parses (`serde_json::from_reader(..).unwrap()`). -/
structure Env where
  progDeser : Except String ProgKind
  abiOk : Bool

/-- Result of `generate_proof`: `Ok(qr)`, `Err(msg)`, or a Rust panic. -/
inductive GenResult
  | ok (qr : ProofQrCode Bytes)
  | error (msg : String)
  | panicked
deriving DecidableEq

/-- `src/zk.rs` lines 122–145 of `generate_proof`: the proving pipeline run
on already-folded circuit arguments — build the argument vector, execute the
circuit for the public output, prove (`G16::generate_proof`, abstracted as
`prove` composed with the bellman serialization `write`), obfuscate, and
assemble the `ProofQrCode`. -/
def provingPipeline {Pf : Type} (H : F → F → F) (prove : List F → Pf)
    (write : Pf → Bytes) (rq : QrRequest) (args : Int × Int × Int) :
    ProofQrCode Bytes :=
  let arguments : List F := [intToF args.1, intToF args.2.1, intToF args.2.2,
    fieldFromBytes rq.priv.photos_digest, fieldFromBytes rq.priv.private_key]
  let out := circuitOutput H (intToF args.1) (intToF args.2.1)
    (intToF args.2.2) (fieldFromBytes rq.priv.photos_digest)
    (fieldFromBytes rq.priv.private_key)
  let hidden := hide_bellman_proof write (prove arguments)
    rq.priv.photos_digest
  ProofQrCode.mk rq.public hidden (fieldToBytes out)

/-- `src/zk.rs`: `generate_proof`.  Deserialization failure of the PROGRAM
blob propagates as an error (`?`); a non-Bn128 program panics
(`panic!("Invalid program type")`); ABI parse failure panics (`unwrap`);
otherwise the relation folding / decoy policy feeds the proving pipeline. -/
def generate_proof {Pf : Type} (H : F → F → F) (prove : List F → Pf)
    (write : Pf → Bytes) (env : Env) (rq : QrRequest) : GenResult :=
  match env.progDeser with
  | Except.error e => GenResult.error e
  | Except.ok ProgKind.other => GenResult.panicked
  | Except.ok ProgKind.bn128 =>
    if env.abiOk then
      GenResult.ok (provingPipeline H prove write rq (foldedInputs rq))
    else GenResult.panicked

/-- Result of `verify_proof`: `Ok(())`, `Err(msg)`, or a Rust panic. -/
inductive VerifyResult
  | valid
  | invalid (msg : String)
  | panicked
deriving DecidableEq

/-- `src/zk.rs`: `verify_proof`.  The verification-key deserialization
outcome is `vkOk`; the Groth16 pairing check against the embedded key is
abstracted as `g16verify`.  The de-obfuscated proof bytes are parsed by
`unhide_bellman_proof` and the result is `.unwrap()`ed (`// TODO error` in
the source), so a parse failure is a panic, not an error return. -/
def verify_proof {Pf : Type} (read : Bytes → Option Pf)
    (g16verify : Pf → List F → Bool) (vkOk : Bool) (qr : ProofQrCode Bytes)
    (photo_digest : Bytes) : VerifyResult :=
  if vkOk then
    match unhide_bellman_proof read qr.proof photo_digest with
    | none => VerifyResult.panicked
    | some proof =>
      if g16verify proof (verifyInputs qr.public qr.challenge) then
        VerifyResult.valid
      else VerifyResult.invalid "no"
  else VerifyResult.invalid "could not deserialize verification key"

/-! ## QR codec (src/api.rs) -/

/-- The base58 (Bitcoin) alphabet used by the external bs58 crate:
digits and letters without 0, O, I, l. -/
def b58Alphabet : List Char :=
  ['1', '2', '3', '4', '5', '6', '7', '8', '9',
   'A', 'B', 'C', 'D', 'E', 'F', 'G', 'H', 'J', 'K', 'L', 'M', 'N',
   'P', 'Q', 'R', 'S', 'T', 'U', 'V', 'W', 'X', 'Y', 'Z',
   'a', 'b', 'c', 'd', 'e', 'f', 'g', 'h', 'i', 'j', 'k', 'm', 'n',
   'o', 'p', 'q', 'r', 's', 't', 'u', 'v', 'w', 'x', 'y', 'z']

/-- Character of a base58 digit. -/
def b58Digit (d : Nat) : Char := b58Alphabet.getD d '1'

/-- Digit of a base58 character; `none` when not in the alphabet. -/
def b58Val (c : Char) : Option Nat :=
  let i := b58Alphabet.indexOf c
  if i < 58 then some i else none

/-- Digits of a base58 string; `none` when any character is invalid. -/
def b58Vals : List Char → Option (List Nat)
  | [] => some []
  | c :: cs =>
    match b58Val c, b58Vals cs with
    | some d, some ds => some (d :: ds)
    | _, _ => none

/-- Modelled from the spec: `bs58::encode` of the external bs58 crate —
each leading zero byte becomes a leading '1' character, the rest is the
minimal base-58 big-endian numeral of the byte string's value. -/
def b58encode (bs : Bytes) : List Char :=
  List.replicate (bs.takeWhile (fun b => b = 0)).length '1' ++
    (natToBaseBE 58 (bytesToNatBE bs)).map b58Digit

/-- Modelled from the spec: `bs58::decode` of the external bs58 crate —
rejects any character outside the alphabet, maps leading '1' characters to
leading zero bytes, and decodes the whole string's base-58 value into its
minimal big-endian bytes. -/
def b58decode (s : List Char) : Option Bytes :=
  match b58Vals s with
  | none => none
  | some ds =>
    some (List.replicate (s.takeWhile (fun c => c = '1')).length 0 ++
      natToBaseBE 256 (ofBaseBE 58 ds))

/-- `write_i32::<BigEndian>`: 4-byte big-endian two's-complement encoding. -/
def writeI32BE (x : Int) : Bytes := natToBytesBE 4 (x % 2 ^ 32).toNat

/-- Signed value of a 4-byte big-endian two's-complement byte string. -/
def decodeI32BE (bs : Bytes) : Int :=
  let n := bytesToNatBE bs
  if n < 2 ^ 31 then (n : Int) else (n : Int) - 2 ^ 32

/-- `read_i32::<BigEndian>` on a cursor: consume 4 bytes or fail. -/
def readI32BE : Bytes → Option (Int × Bytes)
  | b0 :: b1 :: b2 :: b3 :: rest =>
    some (decodeI32BE [b0, b1, b2, b3], rest)
  | _ => none

/-- `src/api.rs`: body of `public_to_string` before base58 —
`today`, `now`, `delta` big-endian followed by the relation byte. -/
def publicBytes (pub : Public) : Bytes :=
  writeI32BE pub.today ++ writeI32BE pub.now ++ writeI32BE pub.delta ++
    [pub.relation.toByte]

/-- `src/api.rs`: `ProofQrCode::public_to_string`. -/
def public_to_string (pub : Public) : List Char := b58encode (publicBytes pub)

/-- `src/api.rs`: `ProofQrCode::public_from_str` — base58-decode, then read
three big-endian `i32` values and the relation byte from a cursor; byte `0`
is Younger, anything else Older. -/
def public_from_str (s : List Char) : Option Public :=
  match b58decode s with
  | none => none
  | some bytes =>
    match readI32BE bytes with
    | none => none
    | some (today, r1) =>
      match readI32BE r1 with
      | none => none
      | some (now, r2) =>
        match readI32BE r2 with
        | none => none
        | some (delta, r3) =>
          match r3 with
          | [] => none
          | relb :: _ =>
            some (Public.mk today now
              (if relb = 0 then Relation.Younger else Relation.Older) delta)

/-- `src/api.rs`: `ProofQrCode::proof_to_string` — bellman serialization
(abstracted as `write`) then base58. -/
def proof_to_string {Pf : Type} (write : Pf → Bytes) (proof : Pf) :
    List Char :=
  b58encode (write proof)

/-- `src/api.rs`: `ProofQrCode::proof_from_str` — base58-decode then parse
as a bellman proof (abstracted as `read`). -/
def proof_from_str {Pf : Type} (read : Bytes → Option Pf) (s : List Char) :
    Option Pf :=
  match b58decode s with
  | none => none
  | some bs => read bs

/-- `src/api.rs`: `ProofQrCode::challenge_to_string`. -/
def challenge_to_string (challenge : Bytes) : List Char := b58encode challenge

/-- `src/api.rs`: `ProofQrCode::challenge_from_str`. -/
def challenge_from_str (s : List Char) : Option Bytes := b58decode s

/-- `src/api.rs`: `ToString for ProofQrCode` — the three tokens joined by
a single semicolon. -/
def ProofQrCode.to_string {Pf : Type} (write : Pf → Bytes)
    (qr : ProofQrCode Pf) : List Char :=
  public_to_string qr.public ++ ';' :: proof_to_string write qr.proof ++
    ';' :: challenge_to_string qr.challenge

/-- Rust `str::split(";")` on a character list. -/
def splitSemi : List Char → List (List Char)
  | [] => [[]]
  | c :: rest =>
    if c = ';' then [] :: splitSemi rest
    else
      match splitSemi rest with
      | [] => [[c]]
      | t :: ts => (c :: t) :: ts

/-- `src/api.rs`: `FromStr for ProofQrCode` — exactly three `;`-separated
tokens, each of which must decode. -/
def ProofQrCode.from_str {Pf : Type} (read : Bytes → Option Pf)
    (s : List Char) : Option (ProofQrCode Pf) :=
  match splitSemi s with
  | [p0, p1, p2] =>
    match public_from_str p0, proof_from_str read p1,
        challenge_from_str p2 with
    | some pub, some pf, some ch => some (ProofQrCode.mk pub pf ch)
    | _, _, _ => none
  | _ => none

/-! ## Claim C7: obfuscation involutivity -/

theorem hide_buffer_length (buf hidding : Bytes) :
    (hide_buffer buf hidding).length = buf.length := by
  unfold hide_buffer
  by_cases h : 0 < hidding.length <;>
    simp [h, List.length_zipWith]

theorem hide_buffer_getD (buf hidding : Bytes) (i : Nat) (hi : i < buf.length)
    (hh : 0 < hidding.length) :
    (hide_buffer buf hidding).getD i 0 =
      buf.getD i 0 ^^^ hidding.getD (i % hidding.length) 0 := by
  unfold hide_buffer
  simp only [hh, if_pos]
  rw [List.getD_eq_getElem?_getD, List.getElem?_zipWith]
  rw [List.getElem?_range hi]
  have : buf[i]? = some buf[i] := List.getElem?_eq_getElem hi
  simp [this, List.getD_eq_getElem?_getD, List.getElem?_eq_getElem hi]

theorem hide_buffer_involutive (buf hidding : Bytes) :
    hide_buffer (hide_buffer buf hidding) hidding = buf := by
  by_cases hh : 0 < hidding.length
  · apply List.ext_getElem
    · rw [hide_buffer_length, hide_buffer_length]
    · intro i hi hi'
      have hlen : i < buf.length := by
        rw [hide_buffer_length, hide_buffer_length] at hi; exact hi
      have h1 : (hide_buffer (hide_buffer buf hidding) hidding).getD i 0 =
          (hide_buffer buf hidding).getD i 0 ^^^
            hidding.getD (i % hidding.length) 0 := by
        apply hide_buffer_getD
        · rw [hide_buffer_length]; exact hlen
        · exact hh
      rw [hide_buffer_getD buf hidding i hlen hh] at h1
      rw [Nat.xor_assoc, Nat.xor_self, Nat.xor_zero] at h1
      have h2 : (hide_buffer (hide_buffer buf hidding) hidding).getD i 0 =
          (hide_buffer (hide_buffer buf hidding) hidding)[i] :=
        List.getD_eq_getElem _ _ hi
      have h3 : buf.getD i 0 = buf[i] := List.getD_eq_getElem _ _ hlen
      rw [h2, h3] at h1
      exact h1
  · unfold hide_buffer
    simp [hh]

/-- C7: the XOR obfuscation is an involution — de-obfuscating with the same
pad restores every byte vector, an empty pad is the identity, and
`unhide_bellman_proof` after `hide_bellman_proof` with the same pad parses
exactly the serialized proof bytes. -/
theorem claim_C7_obfuscation_involutive :
    (∀ b k : Bytes, hide_buffer (hide_buffer b k) k = b) ∧
    (∀ b : Bytes, hide_buffer b [] = b) ∧
    (∀ (Pf : Type) (write : Pf → Bytes) (read : Bytes → Option Pf)
        (proof : Pf) (k : Bytes),
      unhide_bellman_proof read (hide_bellman_proof write proof k) k =
        read (write proof)) := by
  refine ⟨hide_buffer_involutive, ?_, ?_⟩
  · intro b
    unfold hide_buffer
    simp
  · intro Pf write read proof k
    unfold unhide_bellman_proof hide_bellman_proof
    rw [hide_buffer_involutive]

/-! ## Claim C9: strict-inequality semantics of is_relation_valid -/

/-- C9: within the documented Julian-day range, `is_relation_valid` holds
exactly on the strict inequality (`birthday + delta > today` for Younger,
`birthday + delta < today` for Older); equality is invalid for either
relation. -/
theorem claim_C9_is_relation_valid (rq : QrRequest)
    (hb : 0 ≤ rq.priv.birthday ∧ rq.priv.birthday ≤ MAX_JULIAN_DAY)
    (hd : 0 ≤ rq.public.delta ∧ rq.public.delta ≤ MAX_JULIAN_DAY) :
    (rq.public.relation = Relation.Younger →
      (rq.is_relation_valid = true ↔
        rq.priv.birthday + rq.public.delta > rq.public.today)) ∧
    (rq.public.relation = Relation.Older →
      (rq.is_relation_valid = true ↔
        rq.priv.birthday + rq.public.delta < rq.public.today)) ∧
    (rq.priv.birthday + rq.public.delta = rq.public.today →
      rq.is_relation_valid = false) := by
  have hwrap : wrap32 (rq.priv.birthday + rq.public.delta) =
      rq.priv.birthday + rq.public.delta := by
    unfold wrap32 MAX_JULIAN_DAY at *
    omega
  unfold QrRequest.is_relation_valid
  refine ⟨?_, ?_, ?_⟩
  · intro h; rw [h]; simp [hwrap]
  · intro h; rw [h]; simp [hwrap]
  · intro h
    cases hr : rq.public.relation <;>
      simp only [hr, hwrap, decide_eq_false_iff_not, not_lt] <;> omega

theorem claim_C9_witness :
    (0 ≤ (2001 : Int) ∧ (2001 : Int) ≤ MAX_JULIAN_DAY) ∧
    ((QrRequest.mk (Public.mk 2020 1200 Relation.Older 18)
        (Private.mk 2001 [] [])).is_relation_valid = true ↔
      (2001 : Int) + 18 < 2020) := by
  have h := claim_C9_is_relation_valid
    (QrRequest.mk (Public.mk 2020 1200 Relation.Older 18) (Private.mk 2001 [] []))
    (by constructor <;> decide) (by constructor <;> decide)
  exact ⟨by constructor <;> decide, h.2.1 rfl⟩

/-! ## Claim C10: absence of i32 overflow under the documented ranges -/

/-- C10: with `today`, `delta`, `birthday` all in `[0, 9_999_999]`, every
`i32` computation of the pipeline — the validity sum, the prover fold and the
verifier fold — stays inside the `i32` range and wrapping is the identity on
it, so no wraparound (or overflow panic) is reachable. -/
theorem claim_C10_no_overflow (rq : QrRequest) (pub : Public)
    (hb : 0 ≤ rq.priv.birthday ∧ rq.priv.birthday ≤ MAX_JULIAN_DAY)
    (hd : 0 ≤ rq.public.delta ∧ rq.public.delta ≤ MAX_JULIAN_DAY)
    (ht : 0 ≤ rq.public.today ∧ rq.public.today ≤ MAX_JULIAN_DAY)
    (hpd : 0 ≤ pub.delta ∧ pub.delta ≤ MAX_JULIAN_DAY)
    (hpt : 0 ≤ pub.today ∧ pub.today ≤ MAX_JULIAN_DAY) :
    inI32 (rq.priv.birthday + rq.public.delta) ∧
    wrap32 (rq.priv.birthday + rq.public.delta) =
      rq.priv.birthday + rq.public.delta ∧
    wrap32 (MAX_JULIAN_DAY - rq.priv.birthday) =
      MAX_JULIAN_DAY - rq.priv.birthday ∧
    wrap32 (MAX_JULIAN_DAY - rq.public.delta) =
      MAX_JULIAN_DAY - rq.public.delta ∧
    wrap32 (wrap32 (2 * MAX_JULIAN_DAY) - rq.public.today) =
      2 * MAX_JULIAN_DAY - rq.public.today ∧
    inI32 (foldedInputs rq).1 ∧ inI32 (foldedInputs rq).2.1 ∧
    inI32 (foldedInputs rq).2.2 ∧
    inI32 (verifierFold pub).1 ∧ inI32 (verifierFold pub).2 := by
  obtain ⟨hb1, hb2⟩ := hb
  obtain ⟨hd1, hd2⟩ := hd
  obtain ⟨ht1, ht2⟩ := ht
  obtain ⟨hpd1, hpd2⟩ := hpd
  obtain ⟨hpt1, hpt2⟩ := hpt
  have hM : MAX_JULIAN_DAY = 9999999 := rfl
  rw [hM] at hb2 hd2 ht2 hpd2 hpt2
  have hw : ∀ x : Int, -(2 ^ 31) ≤ x → x < 2 ^ 31 → wrap32 x = x := by
    intro x h1 h2; unfold wrap32; omega
  have hI : ∀ x : Int, -(2 ^ 31) ≤ x → x < 2 ^ 31 → inI32 x := by
    intro x h1 h2; exact ⟨h1, h2⟩
  have e2 : wrap32 (2 * MAX_JULIAN_DAY) = 2 * MAX_JULIAN_DAY := by
    rw [hM]; exact hw _ (by omega) (by omega)
  have hchar : foldedInputs rq =
        (rq.priv.birthday, rq.public.delta, rq.public.today) ∨
      foldedInputs rq = (rq.priv.birthday, 0, rq.public.today) ∨
      foldedInputs rq = (MAX_JULIAN_DAY - rq.priv.birthday,
        MAX_JULIAN_DAY - rq.public.delta,
        2 * MAX_JULIAN_DAY - rq.public.today) := by
    unfold foldedInputs
    by_cases hv : rq.is_relation_valid
    · by_cases hy : rq.public.relation = Relation.Younger
      · right; right
        simp only [hv, hy, if_true, reduceIte]
        rw [e2, hM, hw _ (by omega) (by omega), hw _ (by omega) (by omega),
          hw _ (by omega) (by omega)]
      · left
        simp [hv, hy]
    · right; left
      simp [hv]
  have hvchar : verifierFold pub = (pub.delta, pub.today) ∨
      verifierFold pub = (MAX_JULIAN_DAY - pub.delta,
        2 * MAX_JULIAN_DAY - pub.today) := by
    unfold verifierFold
    by_cases hy : pub.relation = Relation.Younger
    · right
      simp only [hy, if_true, reduceIte]
      rw [e2, hM, hw _ (by omega) (by omega), hw _ (by omega) (by omega)]
    · left
      simp [hy]
  refine ⟨hI _ (by omega) (by omega), hw _ (by omega) (by omega),
    ?_, ?_, ?_, ?_, ?_, ?_, ?_, ?_⟩
  · rw [hM]; exact hw _ (by omega) (by omega)
  · rw [hM]; exact hw _ (by omega) (by omega)
  · rw [e2, hM]; exact hw _ (by omega) (by omega)
  · rcases hchar with h | h | h <;> rw [h] <;> try rw [hM]
    all_goals (dsimp only; exact hI _ (by omega) (by omega))
  · rcases hchar with h | h | h <;> rw [h] <;> try rw [hM]
    all_goals (dsimp only; exact hI _ (by omega) (by omega))
  · rcases hchar with h | h | h <;> rw [h] <;> try rw [hM]
    all_goals (dsimp only; exact hI _ (by omega) (by omega))
  · rcases hvchar with h | h <;> rw [h] <;> try rw [hM]
    all_goals (dsimp only; exact hI _ (by omega) (by omega))
  · rcases hvchar with h | h <;> rw [h] <;> try rw [hM]
    all_goals (dsimp only; exact hI _ (by omega) (by omega))

theorem claim_C10_witness :
    inI32 ((2001 : Int) + 18) ∧
    inI32 (foldedInputs (QrRequest.mk (Public.mk 2020 1200 Relation.Older 18)
      (Private.mk 2001 [] []))).1 := by
  have h := claim_C10_no_overflow
    (QrRequest.mk (Public.mk 2020 1200 Relation.Older 18) (Private.mk 2001 [] []))
    (Public.mk 2020 1200 Relation.Older 18)
    (by constructor <;> decide) (by constructor <;> decide)
    (by constructor <;> decide) (by constructor <;> decide)
    (by constructor <;> decide)
  exact ⟨h.1, h.2.2.2.2.2.1⟩

/-! ## Numeral codec lemmas -/

theorem natToBaseLE_zero (b : Nat) : ∀ fuel, natToBaseLE b fuel 0 = [] := by
  intro fuel
  cases fuel with
  | zero => rfl
  | succ fuel => simp [natToBaseLE]

theorem ofBaseLE_natToBaseLE (b : Nat) (hb : 2 ≤ b) :
    ∀ fuel n, n < fuel → ofBaseLE b (natToBaseLE b fuel n) = n := by
  intro fuel
  induction fuel with
  | zero => intro n hn; omega
  | succ fuel ih =>
    intro n hn
    by_cases h0 : n = 0
    · subst h0; rw [natToBaseLE_zero]; rfl
    · have hdiv : n / b < fuel := by
        have h1 := Nat.div_lt_self (Nat.pos_of_ne_zero h0) hb
        omega
      have e := ih (n / b) hdiv
      simp only [natToBaseLE, if_neg h0, ofBaseLE, List.foldr_cons]
      simp only [ofBaseLE] at e
      rw [e, Nat.mul_comm]
      exact Nat.div_add_mod n b

theorem natToBaseLE_lt (b : Nat) (hb : 0 < b) :
    ∀ fuel n d, d ∈ natToBaseLE b fuel n → d < b := by
  intro fuel
  induction fuel with
  | zero => intro n d hd; simp [natToBaseLE] at hd
  | succ fuel ih =>
    intro n d hd
    by_cases h0 : n = 0
    · subst h0; rw [natToBaseLE_zero] at hd; simp at hd
    · simp only [natToBaseLE, if_neg h0, List.mem_cons] at hd
      rcases hd with h | h
      · subst h; exact Nat.mod_lt n hb
      · exact ih (n / b) d h

theorem natToBaseLE_ne_nil (b : Nat) :
    ∀ fuel n, n ≠ 0 → 0 < fuel → natToBaseLE b fuel n ≠ [] := by
  intro fuel n h0 hf
  cases fuel with
  | zero => omega
  | succ fuel => simp [natToBaseLE, if_neg h0]

theorem natToBaseLE_getLast (b : Nat) (hb : 2 ≤ b) :
    ∀ fuel n, n < fuel → (natToBaseLE b fuel n).getLast? ≠ some 0 := by
  intro fuel
  induction fuel with
  | zero => intro n hn; omega
  | succ fuel ih =>
    intro n hn
    by_cases h0 : n = 0
    · subst h0; rw [natToBaseLE_zero]; simp
    · simp only [natToBaseLE, if_neg h0]
      by_cases hq : n / b = 0
      · rw [hq, natToBaseLE_zero]
        have hnb : n < b := (Nat.div_eq_zero_iff (by omega)).mp hq
        simp [Nat.mod_eq_of_lt hnb, h0]
      · have hdivlt : n / b < fuel := by
          have h1 := Nat.div_lt_self (Nat.pos_of_ne_zero h0) hb
          omega
        have hne := natToBaseLE_ne_nil b fuel (n / b) hq (by omega)
        obtain ⟨r, rs, hr⟩ := List.exists_cons_of_ne_nil hne
        rw [hr, List.getLast?_cons_cons]
        rw [← hr]
        exact ih (n / b) hdivlt

theorem ofBaseLE_eq_zero (b : Nat) (hb : 2 ≤ b) :
    ∀ l : List Nat, l.getLast? ≠ some 0 → ofBaseLE b l = 0 → l = [] := by
  intro l
  induction l with
  | nil => intro _ _; rfl
  | cons d rest ih =>
    intro hlast hval
    simp only [ofBaseLE, List.foldr_cons] at hval
    have hd : d = 0 := by omega
    have hrest : List.foldr (fun d a => a * b + d) 0 rest * b = 0 := by omega
    have hrest0 : List.foldr (fun d a => a * b + d) 0 rest = 0 := by
      rcases Nat.mul_eq_zero.mp hrest with h | h
      · exact h
      · omega
    cases hre : rest with
    | nil =>
      subst hre hd
      simp at hlast
    | cons r rs =>
      have : rest = [] := by
        apply ih
        · rw [hre] at hlast ⊢
          rw [List.getLast?_cons_cons] at hlast
          exact hlast
        · exact hrest0
      rw [hre] at this
      exact absurd this (by simp)

theorem natToBaseLE_ofBaseLE (b : Nat) (hb : 2 ≤ b) :
    ∀ (l : List Nat) (fuel : Nat), (∀ d ∈ l, d < b) →
      l.getLast? ≠ some 0 → ofBaseLE b l < fuel →
      natToBaseLE b fuel (ofBaseLE b l) = l := by
  intro l
  induction l with
  | nil => intro fuel _ _ _; rw [show ofBaseLE b [] = 0 from rfl, natToBaseLE_zero]
  | cons d rest ih =>
    intro fuel hlt hlast hfuel
    have hvne : ofBaseLE b (d :: rest) ≠ 0 := by
      intro h
      exact absurd (ofBaseLE_eq_zero b hb (d :: rest) hlast h) (by simp)
    cases fuel with
    | zero => omega
    | succ fuel =>
      have hdlt : d < b := hlt d (by simp)
      have hexp : ofBaseLE b (d :: rest) = ofBaseLE b rest * b + d := by
        simp [ofBaseLE]
      have hmod : ofBaseLE b (d :: rest) % b = d := by
        rw [hexp, Nat.mul_comm (ofBaseLE b rest) b, Nat.mul_add_mod,
          Nat.mod_eq_of_lt hdlt]
      have hdiv : ofBaseLE b (d :: rest) / b = ofBaseLE b rest := by
        rw [hexp, Nat.mul_comm (ofBaseLE b rest) b,
          Nat.mul_add_div (by omega), Nat.div_eq_of_lt hdlt]
        omega
      have hreclt : ofBaseLE b rest < fuel := by
        have h1 : ofBaseLE b (d :: rest) / b < ofBaseLE b (d :: rest) :=
          Nat.div_lt_self (Nat.pos_of_ne_zero hvne) hb
        omega
      simp only [natToBaseLE, if_neg hvne, hmod, hdiv]
      congr 1
      apply ih fuel
      · intro x hx; exact hlt x (by simp [hx])
      · cases hre : rest with
        | nil => simp
        | cons r rs =>
          rw [hre] at hlast
          rw [List.getLast?_cons_cons] at hlast
          exact hlast
      · exact hreclt

theorem ofBaseLE_reverse (b : Nat) (l : List Nat) :
    ofBaseLE b l.reverse = ofBaseBE b l := by
  rw [ofBaseLE, ofBaseBE, List.foldr_reverse]

theorem ofBaseBE_natToBaseBE (b : Nat) (hb : 2 ≤ b) (n : Nat) :
    ofBaseBE b (natToBaseBE b n) = n := by
  rw [natToBaseBE, ← ofBaseLE_reverse, List.reverse_reverse]
  exact ofBaseLE_natToBaseLE b hb (n + 1) n (Nat.lt_succ_self n)

theorem natToBaseBE_lt (b : Nat) (hb : 0 < b) (n : Nat) :
    ∀ d ∈ natToBaseBE b n, d < b := by
  intro d hd
  rw [natToBaseBE, List.mem_reverse] at hd
  exact natToBaseLE_lt b hb (n + 1) n d hd

theorem natToBaseBE_head (b : Nat) (hb : 2 ≤ b) (n d : Nat)
    (h : (natToBaseBE b n).head? = some d) : d ≠ 0 := by
  intro h0
  subst h0
  rw [natToBaseBE, List.head?_reverse] at h
  exact natToBaseLE_getLast b hb (n + 1) n (Nat.lt_succ_self n) h

theorem natToBaseBE_ofBaseBE (b : Nat) (hb : 2 ≤ b) (l : List Nat)
    (hlt : ∀ d ∈ l, d < b) (hhead : ∀ d, l.head? = some d → d ≠ 0) :
    natToBaseBE b (ofBaseBE b l) = l := by
  rw [← ofBaseLE_reverse, natToBaseBE]
  have h1 : natToBaseLE b (ofBaseLE b l.reverse + 1) (ofBaseLE b l.reverse) =
      l.reverse := by
    apply natToBaseLE_ofBaseLE b hb
    · intro d hd; exact hlt d (List.mem_reverse.mp hd)
    · rw [List.getLast?_reverse]
      intro hc
      exact hhead 0 hc rfl
    · exact Nat.lt_succ_self _
  rw [h1, List.reverse_reverse]

/-! ## Fixed-width byte encoding lemmas -/

theorem natToBytesBEAux_foldl (a' : Nat) :
    ∀ (w n : Nat) (acc : Bytes), n < 256 ^ w →
      List.foldl (fun a d => a * 256 + d) a' (natToBytesBEAux w n acc) =
        List.foldl (fun a d => a * 256 + d) (a' * 256 ^ w + n) acc := by
  intro w
  induction w generalizing a' with
  | zero =>
    intro n acc hn
    have hn0 : n = 0 := by simpa using hn
    subst hn0
    simp [natToBytesBEAux]
  | succ w ih =>
    intro n acc hn
    have hdivlt : n / 256 < 256 ^ w := by
      rw [Nat.div_lt_iff_lt_mul (by omega)]
      calc n < 256 ^ (w + 1) := hn
        _ = 256 ^ w * 256 := by rw [pow_succ]
    simp only [natToBytesBEAux]
    rw [ih a' (n / 256) (n % 256 :: acc) hdivlt]
    simp only [List.foldl_cons]
    have key : (a' * 256 ^ w + n / 256) * 256 + n % 256 =
        a' * 256 ^ (w + 1) + n := by
      rw [Nat.add_mul, pow_succ, Nat.mul_assoc, Nat.add_assoc]
      congr 1
      omega
    rw [key]

theorem bytesToNatBE_natToBytesBE (w n : Nat) (h : n < 256 ^ w) :
    bytesToNatBE (natToBytesBE w n) = n := by
  have h1 := natToBytesBEAux_foldl 0 w n [] h
  simp only [List.foldl_nil] at h1
  rw [bytesToNatBE, ofBaseBE, natToBytesBE, h1]
  omega

theorem natToBytesBEAux_length :
    ∀ (w n : Nat) (acc : Bytes),
      (natToBytesBEAux w n acc).length = w + acc.length := by
  intro w
  induction w with
  | zero => intro n acc; simp [natToBytesBEAux]
  | succ w ih =>
    intro n acc
    simp only [natToBytesBEAux]
    rw [ih]
    simp only [List.length_cons]
    omega

theorem natToBytesBE_length (w n : Nat) : (natToBytesBE w n).length = w := by
  rw [natToBytesBE, natToBytesBEAux_length]
  rfl

theorem natToBytesBEAux_lt :
    ∀ (w n : Nat) (acc : Bytes), (∀ d ∈ acc, d < 256) →
      ∀ d ∈ natToBytesBEAux w n acc, d < 256 := by
  intro w
  induction w with
  | zero => intro n acc hacc; exact hacc
  | succ w ih =>
    intro n acc hacc d hd
    simp only [natToBytesBEAux] at hd
    apply ih (n / 256) (n % 256 :: acc) _ d hd
    intro x hx
    rcases List.mem_cons.mp hx with h | h
    · subst h; exact Nat.mod_lt n (by omega)
    · exact hacc x h

theorem natToBytesBE_lt (w n : Nat) : ∀ d ∈ natToBytesBE w n, d < 256 := by
  apply natToBytesBEAux_lt
  intro d hd
  simp at hd

/-! ## i32 big-endian codec lemmas -/

theorem natToBytesBE_four (m : Nat) :
    ∃ b0 b1 b2 b3, natToBytesBE 4 m = [b0, b1, b2, b3] :=
  ⟨_, _, _, _, rfl⟩

theorem readI32BE_writeI32BE (x : Int) (rest : Bytes) (hx : inI32 x) :
    readI32BE (writeI32BE x ++ rest) = some (x, rest) := by
  obtain ⟨b0, b1, b2, b3, he⟩ := natToBytesBE_four (x % 2 ^ 32).toNat
  obtain ⟨hl, hr⟩ := hx
  have h1 : (0 : Int) ≤ x % 2 ^ 32 := Int.emod_nonneg x (by norm_num)
  have h2 : x % 2 ^ 32 < 2 ^ 32 := Int.emod_lt_of_pos x (by norm_num)
  have hm : (x % 2 ^ 32).toNat < 256 ^ 4 := by
    have : (256 : Nat) ^ 4 = 2 ^ 32 := by norm_num
    omega
  have hb : bytesToNatBE [b0, b1, b2, b3] = (x % 2 ^ 32).toNat := by
    rw [← he]; exact bytesToNatBE_natToBytesBE 4 _ hm
  rw [writeI32BE, he]
  simp only [List.cons_append, List.nil_append, readI32BE, decodeI32BE, hb]
  have h3 : ((x % 2 ^ 32).toNat : Int) = x % 2 ^ 32 := Int.toNat_of_nonneg h1
  by_cases hc : (x % 2 ^ 32).toNat < 2 ^ 31
  · simp only [hc, if_true]
    congr 1
    congr 1
    omega
  · simp only [hc, if_false]
    congr 1
    congr 1
    omega

theorem writeI32BE_lt (x : Int) : ∀ d ∈ writeI32BE x, d < 256 := by
  rw [writeI32BE]
  exact natToBytesBE_lt 4 _

/-! ## Base58 codec lemmas -/

theorem b58Val_one : b58Val '1' = some 0 := by decide

theorem b58Val_b58Digit (d : Nat) (hd : d < 58) :
    b58Val (b58Digit d) = some d := by
  have h : ∀ d, d < 58 → b58Val (b58Digit d) = some d := by decide
  exact h d hd

theorem b58Digit_ne_one (d : Nat) (hd : d < 58) (h0 : d ≠ 0) :
    b58Digit d ≠ '1' := by
  have h : ∀ d, d < 58 → d ≠ 0 → b58Digit d ≠ '1' := by decide
  exact h d hd h0

theorem b58Digit_ne_semi (d : Nat) (hd : d < 58) : b58Digit d ≠ ';' := by
  have h : ∀ d, d < 58 → b58Digit d ≠ ';' := by decide
  exact h d hd

theorem b58Vals_append (l1 l2 : List Char) (d1 d2 : List Nat)
    (h1 : b58Vals l1 = some d1) (h2 : b58Vals l2 = some d2) :
    b58Vals (l1 ++ l2) = some (d1 ++ d2) := by
  induction l1 generalizing d1 with
  | nil =>
    simp only [b58Vals] at h1
    obtain rfl : d1 = [] := by simpa using h1.symm
    simpa using h2
  | cons c cs ih =>
    cases hv : b58Val c with
    | none =>
      rw [b58Vals, hv] at h1
      simp at h1
    | some d =>
      cases hvs : b58Vals cs with
      | none =>
        rw [b58Vals, hv, hvs] at h1
        simp at h1
      | some ds =>
        rw [b58Vals, hv, hvs] at h1
        simp only [Option.some.injEq] at h1
        subst h1
        rw [List.cons_append, b58Vals, hv, ih ds hvs]
        simp

theorem b58Vals_replicate_one (z : Nat) :
    b58Vals (List.replicate z '1') = some (List.replicate z 0) := by
  induction z with
  | zero => rfl
  | succ z ih =>
    rw [List.replicate_succ, List.replicate_succ, b58Vals, b58Val_one, ih]

theorem b58Vals_map_digit (ds : List Nat) (h : ∀ d ∈ ds, d < 58) :
    b58Vals (ds.map b58Digit) = some ds := by
  induction ds with
  | nil => rfl
  | cons d rest ih =>
    rw [List.map_cons, b58Vals, b58Val_b58Digit d (h d (by simp)),
      ih (fun x hx => h x (by simp [hx]))]

theorem takeWhile_replicate_append {α : Type} (p : α → Bool) (c : α)
    (hc : p c = true) (z : Nat) (rest : List α) :
    (List.replicate z c ++ rest).takeWhile p =
      List.replicate z c ++ rest.takeWhile p := by
  induction z with
  | zero => simp
  | succ z ih =>
    rw [List.replicate_succ, List.cons_append, List.takeWhile_cons, hc,
      if_pos rfl, ih]
    rfl

theorem dropWhile_head_not {α : Type} (p : α → Bool) (l : List α) (d : α)
    (h : (l.dropWhile p).head? = some d) : p d = false := by
  induction l with
  | nil => simp [List.dropWhile] at h
  | cons a rest ih =>
    rw [List.dropWhile_cons] at h
    by_cases hp : p a
    · rw [if_pos hp] at h
      exact ih h
    · rw [if_neg hp] at h
      simp only [List.head?_cons, Option.some.injEq] at h
      subst h
      exact Bool.eq_false_iff.mpr hp

theorem ofBaseBE_replicate_zero (b z : Nat) (l : List Nat) :
    ofBaseBE b (List.replicate z 0 ++ l) = ofBaseBE b l := by
  induction z with
  | zero => simp
  | succ z ih =>
    rw [List.replicate_succ, List.cons_append, ofBaseBE, List.foldl_cons]
    simpa [ofBaseBE] using ih

theorem b58encode_mem_ne_semi (bs : Bytes) : ∀ c ∈ b58encode bs, c ≠ ';' := by
  intro c hc
  rw [b58encode, List.mem_append] at hc
  rcases hc with h | h
  · rw [List.eq_of_mem_replicate h]; decide
  · obtain ⟨d, hd, hcd⟩ := List.mem_map.mp h
    subst hcd
    exact b58Digit_ne_semi d (natToBaseBE_lt 58 (by omega) _ d hd)

theorem b58decode_b58encode (bs : Bytes) (h : ∀ d ∈ bs, d < 256) :
    b58decode (b58encode bs) = some bs := by
  have hdlt : ∀ d ∈ natToBaseBE 58 (bytesToNatBE bs), d < 58 :=
    natToBaseBE_lt 58 (by omega) _
  have hvals : b58Vals (b58encode bs) =
      some (List.replicate (bs.takeWhile (fun b => b = 0)).length 0 ++
        natToBaseBE 58 (bytesToNatBE bs)) := by
    rw [b58encode]
    exact b58Vals_append _ _ _ _ (b58Vals_replicate_one _)
      (b58Vals_map_digit _ hdlt)
  have hmap_tw : ((natToBaseBE 58 (bytesToNatBE bs)).map
      b58Digit).takeWhile (fun c => c = '1') = [] := by
    cases hdg : natToBaseBE 58 (bytesToNatBE bs) with
    | nil => simp
    | cons d0 ds =>
      have hd0 : d0 ≠ 0 := by
        apply natToBaseBE_head 58 (by omega) (bytesToNatBE bs)
        rw [hdg]; rfl
      have hne : b58Digit d0 ≠ '1' := by
        apply b58Digit_ne_one
        · apply hdlt; rw [hdg]; simp
        · exact hd0
      rw [List.map_cons, List.takeWhile_cons]
      simp [hne]
  have htw : ((b58encode bs).takeWhile (fun c => c = '1')).length =
      (bs.takeWhile (fun b => b = 0)).length := by
    rw [b58encode, takeWhile_replicate_append _ _ (by simp) _ _, hmap_tw]
    simp
  have hofv : ofBaseBE 58
      (List.replicate (bs.takeWhile (fun b => b = 0)).length 0 ++
        natToBaseBE 58 (bytesToNatBE bs)) = bytesToNatBE bs := by
    rw [ofBaseBE_replicate_zero]
    exact ofBaseBE_natToBaseBE 58 (by omega) _
  have htake : bs.takeWhile (fun b => b = 0) =
      List.replicate (bs.takeWhile (fun b => b = 0)).length 0 := by
    apply List.eq_replicate_of_mem
    intro x hx
    have := List.mem_takeWhile_imp hx
    simpa using this
  have hdrop_head : ∀ d, (bs.dropWhile (fun b => b = 0)).head? = some d →
      d ≠ 0 := by
    intro d hd
    have hp := dropWhile_head_not (fun b => decide (b = 0)) bs d hd
    intro h0
    rw [h0] at hp
    simp at hp
  have hdrop_lt : ∀ d ∈ bs.dropWhile (fun b => b = 0), d < 256 := by
    intro d hd
    exact h d ((List.dropWhile_sublist _).subset hd)
  have hval_drop : bytesToNatBE bs =
      ofBaseBE 256 (bs.dropWhile (fun b => b = 0)) := by
    conv =>
      lhs
      rw [bytesToNatBE, ← List.takeWhile_append_dropWhile
        (p := fun b => decide (b = 0)) (l := bs)]
    rw [htake, ofBaseBE_replicate_zero]
  have hrec : List.replicate (bs.takeWhile (fun b => b = 0)).length 0 ++
      natToBaseBE 256 (bytesToNatBE bs) = bs := by
    rw [hval_drop, natToBaseBE_ofBaseBE 256 (by omega) _ hdrop_lt hdrop_head,
      ← htake, List.takeWhile_append_dropWhile]
  rw [b58decode, hvals, htw]
  dsimp only
  rw [hofv, hrec]

/-! ## Public-header codec lemmas -/

theorem relationToByte_lt (r : Relation) : r.toByte < 256 := by
  cases r <;> decide

theorem publicBytes_lt (pub : Public) : ∀ d ∈ publicBytes pub, d < 256 := by
  intro d hd
  rw [publicBytes] at hd
  simp only [List.append_assoc, List.mem_append, List.mem_singleton] at hd
  rcases hd with h | h | h | h
  · exact writeI32BE_lt _ d h
  · exact writeI32BE_lt _ d h
  · exact writeI32BE_lt _ d h
  · rw [h]; exact relationToByte_lt pub.relation

theorem public_from_str_to_string (pub : Public)
    (ht : inI32 pub.today) (hn : inI32 pub.now) (hd : inI32 pub.delta) :
    public_from_str (public_to_string pub) = some pub := by
  obtain ⟨t, n, r, d⟩ := pub
  rw [public_to_string, public_from_str,
    b58decode_b58encode _ (publicBytes_lt _)]
  dsimp only
  rw [publicBytes]
  dsimp only
  rw [List.append_assoc, List.append_assoc,
    readI32BE_writeI32BE _ _ ht]
  dsimp only
  rw [readI32BE_writeI32BE _ _ hn]
  dsimp only
  rw [readI32BE_writeI32BE _ _ hd]
  dsimp only
  cases r <;> rfl

/-! ## Semicolon splitting lemmas -/

theorem splitSemi_ne_nil (l : List Char) : splitSemi l ≠ [] := by
  cases l with
  | nil => simp [splitSemi]
  | cons c rest =>
    rw [splitSemi]
    by_cases hc : c = ';'
    · simp [hc]
    · rw [if_neg hc]
      cases splitSemi rest <;> simp

theorem splitSemi_token (tok : List Char) (hq : ∀ c ∈ tok, c ≠ ';') :
    ∀ (rest t : List Char) (ts : List (List Char)),
      splitSemi rest = t :: ts →
      splitSemi (tok ++ rest) = (tok ++ t) :: ts := by
  induction tok with
  | nil =>
    intro rest t ts h
    simpa using h
  | cons c cs ih =>
    intro rest t ts h
    have hc : c ≠ ';' := hq c (by simp)
    rw [List.cons_append, splitSemi, if_neg hc,
      ih (fun x hx => hq x (by simp [hx])) rest t ts h]
    rfl

theorem splitSemi_single (c : List Char) (hc : ∀ x ∈ c, x ≠ ';') :
    splitSemi c = [c] := by
  have h := splitSemi_token c hc [] [] [] rfl
  simpa using h

theorem splitSemi_three (a b c : List Char)
    (ha : ∀ x ∈ a, x ≠ ';') (hb : ∀ x ∈ b, x ≠ ';')
    (hc : ∀ x ∈ c, x ≠ ';') :
    splitSemi (a ++ (';' :: (b ++ (';' :: c)))) = [a, b, c] := by
  have h1 : splitSemi c = [c] := splitSemi_single c hc
  have h2 : splitSemi (';' :: c) = [] :: [c] := by
    rw [splitSemi, if_pos rfl, h1]
  have h3 : splitSemi (b ++ (';' :: c)) = [b, c] := by
    have := splitSemi_token b hb (';' :: c) [] [c] h2
    simpa using this
  have h4 : splitSemi (';' :: (b ++ (';' :: c))) = [] :: [b, c] := by
    rw [splitSemi, if_pos rfl, h3]
  have h5 := splitSemi_token a ha (';' :: (b ++ (';' :: c))) [] [b, c] h4
  simpa using h5

/-! ## Strict-decoding support lemmas -/

theorem readI32BE_some (bs : Bytes) (v : Int) (r : Bytes)
    (h : readI32BE bs = some (v, r)) :
    bs.length = r.length + 4 ∧ r = bs.drop 4 := by
  cases bs with
  | nil => simp [readI32BE] at h
  | cons b0 t0 =>
    cases t0 with
    | nil => simp [readI32BE] at h
    | cons b1 t1 =>
      cases t1 with
      | nil => simp [readI32BE] at h
      | cons b2 t2 =>
        cases t2 with
        | nil => simp [readI32BE] at h
        | cons b3 rest =>
          simp only [readI32BE, Option.some.injEq, Prod.mk.injEq] at h
          obtain ⟨_, hr⟩ := h
          subst hr
          constructor
          · simp only [List.length_cons]
            try omega
          · rfl

theorem public_from_str_some (s : List Char) (pub : Public)
    (h : public_from_str s = some pub) :
    ∃ bytes, b58decode s = some bytes ∧ 13 ≤ bytes.length ∧
      pub.relation = (if bytes.getD 12 0 = 0 then Relation.Younger
        else Relation.Older) := by
  rw [public_from_str] at h
  cases hb : b58decode s with
  | none => rw [hb] at h; simp at h
  | some bytes =>
    rw [hb] at h
    dsimp only at h
    cases h1 : readI32BE bytes with
    | none => rw [h1] at h; simp at h
    | some p1 =>
      obtain ⟨today, r1⟩ := p1
      rw [h1] at h
      dsimp only at h
      cases h2 : readI32BE r1 with
      | none => rw [h2] at h; simp at h
      | some p2 =>
        obtain ⟨now, r2⟩ := p2
        rw [h2] at h
        dsimp only at h
        cases h3 : readI32BE r2 with
        | none => rw [h3] at h; simp at h
        | some p3 =>
          obtain ⟨delta, r3⟩ := p3
          rw [h3] at h
          dsimp only at h
          cases hr3 : r3 with
          | nil => rw [hr3] at h; simp at h
          | cons relb rest =>
            rw [hr3] at h
            dsimp only at h
            obtain ⟨hl1, hd1⟩ := readI32BE_some _ _ _ h1
            obtain ⟨hl2, hd2⟩ := readI32BE_some _ _ _ h2
            obtain ⟨hl3, hd3⟩ := readI32BE_some _ _ _ h3
            have hdrop : bytes.drop 12 = relb :: rest := by
              rw [show (12 : Nat) = 4 + (4 + 4) from rfl, ← List.drop_drop,
                ← List.drop_drop]
              rw [← hd1, ← hd2, ← hd3]
              exact hr3
            have hget : bytes.getD 12 0 = relb := by
              rw [List.getD_eq_getElem?_getD,
                show bytes[12]? = (bytes.drop 12)[0]? by
                  rw [List.getElem?_drop]]
              rw [hdrop]
              simp
            refine ⟨bytes, rfl, ?_, ?_⟩
            · rw [hr3] at hl3
              simp only [List.length_cons] at hl3
              omega
            · rw [hget]
              simp only [Option.some.injEq] at h
              rw [← h]

/-! ## Claim C6: QR round trip -/

/-- C6: for every valid `ProofQrCode` (serializable proof, in-range header
fields, byte-valued vectors), decoding the encoded QR string succeeds and
returns the same value in every field. -/
theorem claim_C6_qr_round_trip {Pf : Type} (write : Pf → Bytes)
    (read : Bytes → Option Pf) (P : ProofQrCode Pf)
    (hrt : read (write P.proof) = some P.proof)
    (hpb : ∀ d ∈ write P.proof, d < 256)
    (hcb : ∀ d ∈ P.challenge, d < 256)
    (ht : inI32 P.public.today) (hn : inI32 P.public.now)
    (hd : inI32 P.public.delta) :
    ProofQrCode.from_str read (ProofQrCode.to_string write P) = some P := by
  obtain ⟨pub, pf, ch⟩ := P
  have hshape : ProofQrCode.to_string write (ProofQrCode.mk pub pf ch) =
      b58encode (publicBytes pub) ++ (';' :: (b58encode (write pf) ++
        (';' :: b58encode ch))) := by
    rw [ProofQrCode.to_string]
    dsimp only
    rw [public_to_string, proof_to_string, challenge_to_string]
    simp [List.append_assoc]
  have hsplit : splitSemi (ProofQrCode.to_string write
      (ProofQrCode.mk pub pf ch)) =
      [b58encode (publicBytes pub), b58encode (write pf), b58encode ch] := by
    rw [hshape]
    exact splitSemi_three _ _ _ (b58encode_mem_ne_semi _)
      (b58encode_mem_ne_semi _) (b58encode_mem_ne_semi _)
  have hp := public_from_str_to_string pub ht hn hd
  rw [public_to_string] at hp
  have hpf : proof_from_str read (b58encode (write pf)) = some pf := by
    rw [proof_from_str, b58decode_b58encode _ hpb]
    exact hrt
  have hch : challenge_from_str (b58encode ch) = some ch := by
    rw [challenge_from_str, b58decode_b58encode _ hcb]
  rw [ProofQrCode.from_str, hsplit]
  dsimp only
  rw [hp, hpf, hch]

theorem claim_C6_witness :
    ProofQrCode.from_str (fun bs => if bs = [7] then some () else none)
      (ProofQrCode.to_string (fun _ : Unit => [7])
        (ProofQrCode.mk (Public.mk 1 2 Relation.Older 3) () [9])) =
      some (ProofQrCode.mk (Public.mk 1 2 Relation.Older 3) () [9]) :=
  claim_C6_qr_round_trip (fun _ : Unit => [7])
    (fun bs => if bs = [7] then some () else none)
    (ProofQrCode.mk (Public.mk 1 2 Relation.Older 3) () [9])
    (by decide) (by decide) (by decide) (by decide) (by decide) (by decide)

/-! ## Claim C8: strict QR decoding -/

/-- C8: a successful `from_str` forces exactly three semicolon tokens, each
base58-decodable, with token0 decoding to at least 13 bytes; the relation of
the result is Younger exactly when byte 12 of token0 is zero, Older
otherwise.  Contrapositively every other malformation yields a parse
error. -/
theorem claim_C8_strict_decoding {Pf : Type} (read : Bytes → Option Pf)
    (s : List Char) (P : ProofQrCode Pf)
    (h : ProofQrCode.from_str read s = some P) :
    ∃ t0 t1 t2, splitSemi s = [t0, t1, t2] ∧
      (∃ bytes, b58decode t0 = some bytes ∧ 13 ≤ bytes.length ∧
        P.public.relation = (if bytes.getD 12 0 = 0 then Relation.Younger
          else Relation.Older)) ∧
      (b58decode t1).isSome = true ∧ (b58decode t2).isSome = true := by
  rw [ProofQrCode.from_str] at h
  cases hs : splitSemi s with
  | nil => rw [hs] at h; simp at h
  | cons p0 rest0 =>
    cases rest0 with
    | nil => rw [hs] at h; simp at h
    | cons p1 rest1 =>
      cases rest1 with
      | nil => rw [hs] at h; simp at h
      | cons p2 rest2 =>
        cases rest2 with
        | cons q qs => rw [hs] at h; simp at h
        | nil =>
          rw [hs] at h
          dsimp only at h
          cases hp0 : public_from_str p0 with
          | none => rw [hp0] at h; simp at h
          | some pub =>
            cases hp1 : proof_from_str read p1 with
            | none => rw [hp0, hp1] at h; simp at h
            | some pf =>
              cases hp2 : challenge_from_str p2 with
              | none => rw [hp0, hp1, hp2] at h; simp at h
              | some ch =>
                rw [hp0, hp1, hp2] at h
                dsimp only at h
                simp only [Option.some.injEq] at h
                subst h
                refine ⟨p0, p1, p2, rfl,
                  public_from_str_some p0 pub hp0, ?_, ?_⟩
                · rw [proof_from_str] at hp1
                  cases hb1 : b58decode p1 with
                  | none => rw [hb1] at hp1; simp at hp1
                  | some bs => rfl
                · rw [challenge_from_str] at hp2
                  rw [hp2]
                  rfl

theorem claim_C8_witness :
    ∃ t0 t1 t2,
      splitSemi (ProofQrCode.to_string (fun _ : Unit => [7])
        (ProofQrCode.mk (Public.mk 1 2 Relation.Older 3) () [9])) =
        [t0, t1, t2] ∧
      (∃ bytes, b58decode t0 = some bytes ∧ 13 ≤ bytes.length ∧
        (ProofQrCode.mk (Public.mk 1 2 Relation.Older 3) ()
          [9]).public.relation =
          (if bytes.getD 12 0 = 0 then Relation.Younger
            else Relation.Older)) ∧
      (b58decode t1).isSome = true ∧ (b58decode t2).isSome = true :=
  claim_C8_strict_decoding (fun bs => if bs = [7] then some () else none)
    (ProofQrCode.to_string (fun _ : Unit => [7])
      (ProofQrCode.mk (Public.mk 1 2 Relation.Older 3) () [9]))
    (ProofQrCode.mk (Public.mk 1 2 Relation.Older 3) () [9])
    (by decide)

/-! ## Claim C5: key derivation and canonical encoding -/

theorem fieldOrder_lt : fieldOrder < 256 ^ 32 := by decide

theorem fieldToBytes_length (x : F) : (fieldToBytes x).length = 32 := by
  rw [fieldToBytes, natToBytesBE_length]

theorem bytesToNatBE_fieldToBytes (x : F) :
    bytesToNatBE (fieldToBytes x) = x.val := by
  rw [fieldToBytes]
  exact bytesToNatBE_natToBytesBE 32 x.val
    (Nat.lt_trans (ZMod.val_lt x) fieldOrder_lt)

theorem fieldFromBytes_fieldToBytes (x : F) :
    fieldFromBytes (fieldToBytes x) = x := by
  rw [fieldFromBytes, bytesToNatBE_fieldToBytes]
  exact ZMod.natCast_rightInverse x

/-- C5: `generate_card_key` returns the field element
`photos_digest * MiMC7r10(photos_digest, birthday * private_key)` in the
canonical 32-byte big-endian encoding (leading zeros preserved, so the
decode–encode round trip is verbatim), and `compute_challenge` returns
`MiMC7r10(today, card_key)` encoded likewise. -/
theorem claim_C5_key_derivation (H : F → F → F) (priv : Private)
    (ck : Bytes) (today : Int) :
    generate_card_key H priv =
      fieldToBytes (fieldFromBytes priv.photos_digest *
        H (fieldFromBytes priv.photos_digest)
          (intToF priv.birthday * fieldFromBytes priv.private_key)) ∧
    (generate_card_key H priv).length = 32 ∧
    fieldFromBytes (generate_card_key H priv) =
      fieldFromBytes priv.photos_digest *
        H (fieldFromBytes priv.photos_digest)
          (intToF priv.birthday * fieldFromBytes priv.private_key) ∧
    compute_challenge H ck today =
      fieldToBytes (H (intToF today) (fieldFromBytes ck)) ∧
    (compute_challenge H ck today).length = 32 := by
  have hmain : generate_card_key H priv =
      fieldToBytes (fieldFromBytes priv.photos_digest *
        H (fieldFromBytes priv.photos_digest)
          (intToF priv.birthday * fieldFromBytes priv.private_key)) := by
    rw [generate_card_key]
    rw [mul_comm]
  refine ⟨hmain, ?_, ?_, rfl, fieldToBytes_length _⟩
  · rw [hmain]; exact fieldToBytes_length _
  · rw [hmain]; exact fieldFromBytes_fieldToBytes _

/-! ## Claim C4: relation folding on both sides -/

theorem wrap32_eq_of_inI32 (x : Int) (h1 : -(2 ^ 31) ≤ x) (h2 : x < 2 ^ 31) :
    wrap32 x = x := by
  unfold wrap32; omega

/-- C4: with M = 9 999 999, a valid Younger request folds the prover
arguments to `(M - birthday, M - delta, 2M - today)`, a Younger public
header folds the verifier side to `(M - delta, 2M - today)` while an Older
header passes through unchanged, and the verifier's public-input vector is
exactly `[delta_encoded, today_encoded, challenge]`. -/
theorem claim_C4_relation_fold (rq : QrRequest) (pub : Public)
    (challenge : Bytes)
    (hb : 0 ≤ rq.priv.birthday ∧ rq.priv.birthday ≤ MAX_JULIAN_DAY)
    (hd : 0 ≤ rq.public.delta ∧ rq.public.delta ≤ MAX_JULIAN_DAY)
    (ht : 0 ≤ rq.public.today ∧ rq.public.today ≤ MAX_JULIAN_DAY)
    (hpd : 0 ≤ pub.delta ∧ pub.delta ≤ MAX_JULIAN_DAY)
    (hpt : 0 ≤ pub.today ∧ pub.today ≤ MAX_JULIAN_DAY) :
    (rq.is_relation_valid = true → rq.public.relation = Relation.Younger →
      foldedInputs rq = (MAX_JULIAN_DAY - rq.priv.birthday,
        MAX_JULIAN_DAY - rq.public.delta,
        2 * MAX_JULIAN_DAY - rq.public.today)) ∧
    (pub.relation = Relation.Younger →
      verifierFold pub = (MAX_JULIAN_DAY - pub.delta,
        2 * MAX_JULIAN_DAY - pub.today)) ∧
    (pub.relation = Relation.Older →
      verifierFold pub = (pub.delta, pub.today)) ∧
    verifyInputs pub challenge = [intToF (verifierFold pub).1,
      intToF (verifierFold pub).2, fieldFromBytes challenge] := by
  obtain ⟨hb1, hb2⟩ := hb
  obtain ⟨hd1, hd2⟩ := hd
  obtain ⟨ht1, ht2⟩ := ht
  obtain ⟨hpd1, hpd2⟩ := hpd
  obtain ⟨hpt1, hpt2⟩ := hpt
  have hM : MAX_JULIAN_DAY = 9999999 := rfl
  rw [hM] at hb2 hd2 ht2 hpd2 hpt2
  have e2 : wrap32 (2 * MAX_JULIAN_DAY) = 2 * MAX_JULIAN_DAY := by
    rw [hM]; exact wrap32_eq_of_inI32 _ (by omega) (by omega)
  refine ⟨?_, ?_, ?_, rfl⟩
  · intro hv hy
    simp only [foldedInputs, hv, hy, if_true, reduceIte]
    rw [e2, hM, wrap32_eq_of_inI32 _ (by omega) (by omega),
      wrap32_eq_of_inI32 _ (by omega) (by omega),
      wrap32_eq_of_inI32 _ (by omega) (by omega)]
  · intro hy
    simp only [verifierFold, hy, if_true, reduceIte]
    rw [e2, hM, wrap32_eq_of_inI32 _ (by omega) (by omega),
      wrap32_eq_of_inI32 _ (by omega) (by omega)]
  · intro hy
    simp [verifierFold, hy]

theorem claim_C4_witness :
    foldedInputs (QrRequest.mk (Public.mk 2020 1200 Relation.Younger 21)
        (Private.mk 2001 [] [])) =
      (9999999 - 2001, 9999999 - 21, 2 * 9999999 - 2020) ∧
    verifierFold (Public.mk 2020 1200 Relation.Younger 21) =
      (9999999 - 21, 2 * 9999999 - 2020) := by
  have h := claim_C4_relation_fold
    (QrRequest.mk (Public.mk 2020 1200 Relation.Younger 21)
      (Private.mk 2001 [] []))
    (Public.mk 2020 1200 Relation.Younger 21) []
    (by constructor <;> decide) (by constructor <;> decide)
    (by constructor <;> decide) (by constructor <;> decide)
    (by constructor <;> decide)
  exact ⟨h.1 (by decide) rfl, h.2.1 rfl⟩

/-! ## Claim C1: generation errors only on infrastructure failure -/

/-- C1: with intact embedded assets, `generate_proof` never returns an
error; in particular an invalid-relation request still yields `Ok` with a
well-formed `ProofQrCode` (the request's public header and a 32-byte
challenge). -/
theorem claim_C1_generate_errors_only_infra {Pf : Type} (H : F → F → F)
    (prove : List F → Pf) (write : Pf → Bytes) (env : Env) (rq : QrRequest)
    (hprog : env.progDeser = Except.ok ProgKind.bn128)
    (habi : env.abiOk = true) :
    (∀ msg, generate_proof H prove write env rq ≠ GenResult.error msg) ∧
    (rq.is_relation_valid = false →
      generate_proof H prove write env rq =
        GenResult.ok (provingPipeline H prove write rq (foldedInputs rq)) ∧
      (provingPipeline H prove write rq (foldedInputs rq)).public =
        rq.public ∧
      (provingPipeline H prove write rq
        (foldedInputs rq)).challenge.length = 32) := by
  have hgen : generate_proof H prove write env rq =
      GenResult.ok (provingPipeline H prove write rq (foldedInputs rq)) := by
    rw [generate_proof, hprog]
    dsimp only
    rw [if_pos habi]
  refine ⟨?_, fun _ => ⟨hgen, rfl, ?_⟩⟩
  · intro msg hc
    rw [hgen] at hc
    simp at hc
  · rw [provingPipeline]
    dsimp only
    exact fieldToBytes_length _

theorem claim_C1_witness :
    generate_proof (fun _ _ => (0 : F)) (fun _ => ()) (fun _ => [])
        (Env.mk (Except.ok ProgKind.bn128) true)
        (QrRequest.mk (Public.mk 2020 1200 Relation.Older 18)
          (Private.mk 2010 [] [])) ≠ GenResult.error "boom" ∧
    generate_proof (fun _ _ => (0 : F)) (fun _ => ()) (fun _ => [])
        (Env.mk (Except.ok ProgKind.bn128) true)
        (QrRequest.mk (Public.mk 2020 1200 Relation.Older 18)
          (Private.mk 2010 [] [])) =
      GenResult.ok (provingPipeline (fun _ _ => (0 : F)) (fun _ => ())
        (fun _ => [])
        (QrRequest.mk (Public.mk 2020 1200 Relation.Older 18)
          (Private.mk 2010 [] []))
        (foldedInputs (QrRequest.mk (Public.mk 2020 1200 Relation.Older 18)
          (Private.mk 2010 [] [])))) := by
  have h := claim_C1_generate_errors_only_infra (fun _ _ => (0 : F))
    (fun _ => ()) (fun _ => [])
    (Env.mk (Except.ok ProgKind.bn128) true)
    (QrRequest.mk (Public.mk 2020 1200 Relation.Older 18)
      (Private.mk 2010 [] [])) rfl rfl
  exact ⟨h.1 "boom", (h.2 (by decide)).1⟩

/-! ## Claim C3: the decoy-proof policy -/

/-- C3: on an invalid request the prover sets the delta argument to 0,
passes birthday and today untransformed, and still runs the same proving
pipeline — no error, no early exit. -/
theorem claim_C3_decoy_policy {Pf : Type} (H : F → F → F)
    (prove : List F → Pf) (write : Pf → Bytes) (env : Env) (rq : QrRequest)
    (hprog : env.progDeser = Except.ok ProgKind.bn128)
    (habi : env.abiOk = true)
    (hinv : rq.is_relation_valid = false) :
    foldedInputs rq = (rq.priv.birthday, 0, rq.public.today) ∧
    generate_proof H prove write env rq =
      GenResult.ok (provingPipeline H prove write rq
        (rq.priv.birthday, 0, rq.public.today)) := by
  have hf : foldedInputs rq = (rq.priv.birthday, 0, rq.public.today) := by
    simp [foldedInputs, hinv]
  refine ⟨hf, ?_⟩
  rw [generate_proof, hprog]
  dsimp only
  rw [if_pos habi, hf]

theorem claim_C3_witness :
    foldedInputs (QrRequest.mk (Public.mk 2020 1200 Relation.Older 18)
        (Private.mk 2010 [] [])) = (2010, 0, 2020) ∧
    generate_proof (fun _ _ => (0 : F)) (fun _ => ()) (fun _ => [])
        (Env.mk (Except.ok ProgKind.bn128) true)
        (QrRequest.mk (Public.mk 2020 1200 Relation.Older 18)
          (Private.mk 2010 [] [])) =
      GenResult.ok (provingPipeline (fun _ _ => (0 : F)) (fun _ => ())
        (fun _ => [])
        (QrRequest.mk (Public.mk 2020 1200 Relation.Older 18)
          (Private.mk 2010 [] [])) (2010, 0, 2020)) :=
  claim_C3_decoy_policy (fun _ _ => (0 : F)) (fun _ => ()) (fun _ => [])
    (Env.mk (Except.ok ProgKind.bn128) true)
    (QrRequest.mk (Public.mk 2020 1200 Relation.Older 18)
      (Private.mk 2010 [] [])) rfl rfl (by decide)

/-! ## Claim C2: verify-side parse failure -/

/-- C2 (divergence from the spec): when the de-obfuscated proof bytes fail
to parse as a Groth16 BN256 proof, `verify_proof` panics on the `.unwrap()`
of `unhide_bellman_proof` (`// TODO error` in the source) instead of
collapsing to the Invalid outcome the spec requires. -/
theorem claim_C2_parse_failure_panics {Pf : Type} (read : Bytes → Option Pf)
    (g16verify : Pf → List F → Bool) (qr : ProofQrCode Bytes) (pd : Bytes)
    (hparse : read (hide_buffer qr.proof pd) = none) :
    verify_proof read g16verify true qr pd = VerifyResult.panicked := by
  rw [verify_proof, if_pos rfl, unhide_bellman_proof, hparse]

theorem claim_C2_witness :
    verify_proof (fun _ : Bytes => (none : Option Unit)) (fun _ _ => true)
      true (ProofQrCode.mk (Public.mk 0 0 Relation.Younger 0) [] []) [] =
      VerifyResult.panicked :=
  claim_C2_parse_failure_panics (fun _ => (none : Option Unit))
    (fun _ _ => true)
    (ProofQrCode.mk (Public.mk 0 0 Relation.Younger 0) [] []) [] rfl

end LegalAge
